import Mathlib

/-!
Verification development for the HD (BIP32/BIP44) key-derivation core of the
okchain-go-sdk repository, file types/crypto/keys/hd/hdpath.go.

Bytes are modelled as natural numbers (a genuine byte is < 256) and byte
arrays as lists.  Go's [32]byte values are lists of length 32; the length
facts are carried as hypotheses or proved, mirroring the fixed-size types.
Machine words are naturals reduced modulo 2^64 (SHA-512 words) or 2^32
(path indices) exactly where the Go code's fixed-width types truncate.
-/

namespace HD

/-- Interpret a byte list as an unsigned big-endian integer.  This is the
semantics of Go's big.Int.SetBytes as used by addScalars. -/
def fromBytes (l : List Nat) : Nat :=
  l.foldl (fun acc b => acc * 256 + b) 0

/-- Big-endian encoding of x into exactly w bytes (truncating above 256^w).
Models Go's binary.BigEndian.PutUint32 (w = 4) and the left-zero-padded
32-byte scalar encoding (w = 32). -/
def beBytes : Nat → Nat → List Nat
  | 0, _ => []
  | w + 1, x => beBytes w (x / 256) ++ [x % 256]

/-- Minimal big-endian encoding with no leading zero bytes: the semantics of
Go's big.Int.Bytes.  Written with fuel so that it evaluates by kernel
reduction; minBytes supplies fuel n for input n, which always suffices. -/
def minBytesAux : Nat → Nat → List Nat
  | 0, _ => []
  | fuel + 1, n => if n = 0 then [] else minBytesAux fuel (n / 256) ++ [n % 256]

/-- Minimal big-endian byte encoding (big.Int.Bytes): empty for zero. -/
def minBytes (n : Nat) : List Nat := minBytesAux n n

/-! ### SHA-512 (FIPS 180-4), as implemented by Go's crypto/sha512

The Go source uses crypto/hmac with crypto/sha512; both are modelled here
concretely so everything stays executable. -/

/-- Truncation to a 64-bit word. -/
def w64 (x : Nat) : Nat := x % 2 ^ 64

/-- Right rotation of a 64-bit word. -/
def rotr (n x : Nat) : Nat := w64 ((x >>> n) ||| (x <<< (64 - n)))

/-- Bitwise complement of a 64-bit word. -/
def not64 (x : Nat) : Nat := x ^^^ (2 ^ 64 - 1)

/-- SHA-512 Ch function. -/
def shaCh (x y z : Nat) : Nat := (x &&& y) ^^^ (not64 x &&& z)

/-- SHA-512 Maj function. -/
def shaMaj (x y z : Nat) : Nat := (x &&& y) ^^^ (x &&& z) ^^^ (y &&& z)

/-- SHA-512 big Sigma0. -/
def bigSigma0 (x : Nat) : Nat := rotr 28 x ^^^ rotr 34 x ^^^ rotr 39 x

/-- SHA-512 big Sigma1. -/
def bigSigma1 (x : Nat) : Nat := rotr 14 x ^^^ rotr 18 x ^^^ rotr 41 x

/-- SHA-512 small sigma0. -/
def smallSigma0 (x : Nat) : Nat := rotr 1 x ^^^ rotr 8 x ^^^ (x >>> 7)

/-- SHA-512 small sigma1. -/
def smallSigma1 (x : Nat) : Nat := rotr 19 x ^^^ rotr 61 x ^^^ (x >>> 6)

/-- The 80 SHA-512 round constants of FIPS 180-4 (decimal). -/
def shaK : List Nat :=
  [4794697086780616226, 8158064640168781261, 13096744586834688815,
   16840607885511220156, 4131703408338449720, 6480981068601479193,
   10538285296894168987, 12329834152419229976, 15566598209576043074,
   1334009975649890238, 2608012711638119052, 6128411473006802146,
   8268148722764581231, 9286055187155687089, 11230858885718282805,
   13951009754708518548, 16472876342353939154, 17275323862435702243,
   1135362057144423861, 2597628984639134821, 3308224258029322869,
   5365058923640841347, 6679025012923562964, 8573033837759648693,
   10970295158949994411, 12119686244451234320, 12683024718118986047,
   13788192230050041572, 14330467153632333762, 15395433587784984357,
   489312712824947311, 1452737877330783856, 2861767655752347644,
   3322285676063803686, 5560940570517711597, 5996557281743188959,
   7280758554555802590, 8532644243296465576, 9350256976987008742,
   10552545826968843579, 11727347734174303076, 12113106623233404929,
   14000437183269869457, 14369950271660146224, 15101387698204529176,
   15463397548674623760, 17586052441742319658, 1182934255886127544,
   1847814050463011016, 2177327727835720531, 2830643537854262169,
   3796741975233480872, 4115178125766777443, 5681478168544905931,
   6601373596472566643, 7507060721942968483, 8399075790359081724,
   8693463985226723168, 9568029438360202098, 10144078919501101548,
   10430055236837252648, 11840083180663258601, 13761210420658862357,
   14299343276471374635, 14566680578165727644, 15097957966210449927,
   16922976911328602910, 17689382322260857208, 500013540394364858,
   748580250866718886, 1242879168328830382, 1977374033974150939,
   2944078676154940804, 3659926193048069267, 4368137639120453308,
   4836135668995329356, 5532061633213252278, 6448918945643986474,
   6902733635092675308, 7801388544844847127]

/-- SHA-512 working state: eight 64-bit words. -/
structure ShaState where
  a : Nat
  b : Nat
  c : Nat
  d : Nat
  e : Nat
  f : Nat
  g : Nat
  h : Nat

/-- SHA-512 initial hash value of FIPS 180-4 (decimal). -/
def shaInit : ShaState :=
  ⟨7640891576956012808, 13503953896175478587, 4354685564936845355,
   11912009170470909681, 5840696475078001361, 11170449401992604703,
   2270897969802886507, 6620516959819538809⟩

/-- One SHA-512 round, consuming a (round constant, schedule word) pair. -/
def shaRound (s : ShaState) (kw : Nat × Nat) : ShaState :=
  let t1 := w64 (s.h + bigSigma1 s.e + shaCh s.e s.f s.g + kw.1 + kw.2)
  let t2 := w64 (bigSigma0 s.a + shaMaj s.a s.b s.c)
  ⟨w64 (t1 + t2), s.a, s.b, s.c, w64 (s.d + t1), s.e, s.f, s.g⟩

/-- Group a byte list into big-endian 64-bit words, eight bytes per word. -/
def toWords : List Nat → List Nat
  | b0 :: b1 :: b2 :: b3 :: b4 :: b5 :: b6 :: b7 :: rest =>
      fromBytes [b0, b1, b2, b3, b4, b5, b6, b7] :: toWords rest
  | _ => []

/-- Extend the 16 words of a block to the 80-word SHA-512 message schedule. -/
def shaSchedule (ws : List Nat) : List Nat :=
  (List.range 64).foldl
    (fun acc _ =>
      let n := acc.length
      acc ++ [w64 (smallSigma1 (acc.getD (n - 2) 0) + acc.getD (n - 7) 0 +
                   smallSigma0 (acc.getD (n - 15) 0) + acc.getD (n - 16) 0)])
    ws

/-- Compress one 128-byte block into the chaining state. -/
def processBlock (s0 : ShaState) (block : List Nat) : ShaState :=
  let ws := shaSchedule (toWords block)
  let s := (shaK.zip ws).foldl shaRound s0
  ⟨w64 (s0.a + s.a), w64 (s0.b + s.b), w64 (s0.c + s.c), w64 (s0.d + s.d),
   w64 (s0.e + s.e), w64 (s0.f + s.f), w64 (s0.g + s.g), w64 (s0.h + s.h)⟩

/-- SHA-512 padding: 0x80, zero fill, then the 128-bit big-endian bit length,
bringing the total length to a multiple of 128 bytes. -/
def shaPad (msg : List Nat) : List Nat :=
  let l := msg.length
  msg ++ [0x80] ++ List.replicate ((128 - (l + 17) % 128) % 128) 0 ++ beBytes 16 (8 * l)

/-- Split a byte list into consecutive 128-byte blocks (fueled for kernel
reduction; the fuel argument is always at least the number of blocks). -/
def chunksAux : Nat → List Nat → List (List Nat)
  | 0, _ => []
  | _ + 1, [] => []
  | fuel + 1, l => l.take 128 :: chunksAux fuel (l.drop 128)

/-- Serialize the final state to the 64-byte digest. -/
def stateBytes (s : ShaState) : List Nat :=
  beBytes 8 s.a ++ beBytes 8 s.b ++ beBytes 8 s.c ++ beBytes 8 s.d ++
  beBytes 8 s.e ++ beBytes 8 s.f ++ beBytes 8 s.g ++ beBytes 8 s.h

/-- SHA-512 of a byte list: pad, compress each block, serialize. -/
def sha512 (msg : List Nat) : List Nat :=
  let padded := shaPad msg
  stateBytes ((chunksAux padded.length padded).foldl processBlock shaInit)

/-- HMAC-SHA512 (RFC 2104), as implemented by Go's crypto/hmac over
crypto/sha512: block size 128; keys longer than a block are first hashed. -/
def hmacSHA512 (key msg : List Nat) : List Nat :=
  let k0 := if 128 < key.length then sha512 key else key
  let k := k0 ++ List.replicate (128 - k0.length) 0
  let ipad := k.map (fun b => b ^^^ 0x36)
  let opad := k.map (fun b => b ^^^ 0x5c)
  sha512 (opad ++ sha512 (ipad ++ msg))

/-! ### The hd package core (types/crypto/keys/hd/hdpath.go) -/

/-- The secp256k1 group order, btcec.S256().N: the modulus used by
addScalars.  The curve library is an external dependency; only this
constant and the compressed-public-key serializer (kept abstract as a
function parameter below) are consumed from it. -/
def secpN : Nat :=
  0xfffffffffffffffffffffffffffffffebaaedce6af48a03bbfd25e8cd0364141

/-- Go i64: the two 32-byte halves of HMAC-SHA512(key, data), each copied
into a [32]byte. -/
def i64 (key data : List Nat) : List Nat × List Nat :=
  let I := hmacSHA512 key data
  (I.take 32, (I.drop 32).take 32)

/-- Go uint32ToBytes: 4-byte big-endian encoding via binary.BigEndian.PutUint32. -/
def uint32ToBytes (i : Nat) : List Nat := beBytes 4 i

/-- Go addScalars: modular big-endian addition.  big.Int.SetBytes on both
inputs, add, reduce mod the secp256k1 order, big.Int.Bytes, then copy into
a zeroed [32]byte at offset 32 - len. -/
def addScalars (a b : List Nat) : List Nat :=
  let x := minBytes ((fromBytes a + fromBytes b) % secpN)
  List.replicate (32 - x.length) 0 ++ x

/-- Go ComputeMastersFromSeed: master secret and chain code are the two
halves of i64 with the fixed ASCII key "Bitcoin seed". -/
def ComputeMastersFromSeed (seed : List Nat) : List Nat × List Nat :=
  i64 (("Bitcoin seed").toList.map Char.toNat) seed

/-- Go derivePrivateKey: one hardened or non-hardened child-derivation step.
The compressed-public-key serializer (btcec PrivKeyFromBytes followed by
SerializeCompressed) is an external curve capability, passed in as
serializeCompressed. -/
def derivePrivateKey (serializeCompressed : List Nat → List Nat)
    (privKeyBytes chainCode : List Nat) (index : Nat) (harden : Bool) :
    List Nat × List Nat :=
  let index' := if harden then index ||| 0x80000000 else index
  let data := if harden then 0 :: privKeyBytes else serializeCompressed privKeyBytes
  let data := data ++ uint32ToBytes index'
  let r := i64 chainCode data
  (addScalars privKeyBytes r.1, r.2)

/-- Errors returned (via Go's error value) by DerivePrivateKeyForPath. -/
inductive PathError where
  /-- strconv.Atoi failed on a token: invalid BIP 32 path. -/
  | parse
  /-- a token parsed to a negative index. -/
  | negative
  /-- defensive final length check failed. -/
  | lengthMismatch
deriving DecidableEq

/-- Result of handling one path token inside the derivation loop.  The Go
code slices part[len(part)-1:], which panics at runtime on an empty token;
that outcome is kept distinct from error returns. -/
inductive TokRes where
  | panic
  | err (e : PathError)
  | ok (idx : Int) (harden : Bool)
deriving DecidableEq

/-- Result of the derivation loop over the split path. -/
inductive LoopRes where
  | panic
  | err (e : PathError)
  | ok (data chainCode : List Nat)
deriving DecidableEq

/-- Result of DerivePrivateKeyForPath: the Go function returns a [32]byte
together with an error value; a runtime panic returns nothing. -/
inductive DeriveOutcome where
  | panic
  | err (key : List Nat) (e : PathError)
  | ok (key : List Nat)
deriving DecidableEq

/-- The apostrophe character marking hardened derivation. -/
def apos : Char := Char.ofNat 39

/-- The path separator. -/
def slash : Char := Char.ofNat 47

/-- Go strings.Split(path, "/"): an empty input yields one empty token and
consecutive separators yield empty tokens. -/
def splitSlash : List Char → List (List Char)
  | [] => [[]]
  | c :: rest =>
    if c = slash then [] :: splitSlash rest
    else
      match splitSlash rest with
      | [] => [[c]]
      | t :: ts => (c :: t) :: ts

/-- Decimal digit value of a character, if it is one of 0-9. -/
def digitVal (c : Char) : Option Nat :=
  if 48 ≤ c.toNat ∧ c.toNat ≤ 57 then some (c.toNat - 48) else none

/-- Accumulating decimal parse over the remaining characters, failing on the
first non-digit. -/
def parseDigitsGo : List Char → Nat → Option Nat
  | [], acc => some acc
  | c :: rest, acc =>
    match digitVal c with
    | some d => parseDigitsGo rest (acc * 10 + d)
    | none => none

/-- Go strconv.Atoi: optional single leading sign, then at least one decimal
digit, failing when the value overflows the 64-bit int range. -/
def goAtoi (s : List Char) : Option Int :=
  match s with
  | [] => none
  | c :: rest =>
    let p : Bool × List Char :=
      if c = Char.ofNat 45 then (true, rest)
      else if c = Char.ofNat 43 then (false, rest)
      else (false, s)
    match p.2 with
    | [] => none
    | _ :: _ =>
      match parseDigitsGo p.2 0 with
      | none => none
      | some n =>
        let v : Int := if p.1 then -(n : Int) else (n : Int)
        if v < -(2 ^ 63 : Int) ∨ (2 ^ 63 : Int) - 1 < v then none else some v

/-- The token remainder after stripping a trailing apostrophe, exactly as the
loop body of DerivePrivateKeyForPath computes it. -/
def stripApos (part : List Char) : List Char :=
  if part.getLast? == some apos then part.dropLast else part

/-- One iteration of the loop body of DerivePrivateKeyForPath up to the
derivePrivateKey call: detect and strip the hardening apostrophe
(part[len(part)-1:] panics on an empty token), Atoi, negativity check. -/
def parseToken : List Char → TokRes
  | [] => .panic
  | c :: cs =>
    let part := c :: cs
    let harden : Bool := part.getLast? == some apos
    let stripped := if harden then part.dropLast else part
    match goAtoi stripped with
    | none => .err .parse
    | some i => if i < 0 then .err .negative else .ok i harden

/-- The fold of DerivePrivateKeyForPath over the split path, threading the
(data, chainCode) accumulator and returning early on a token failure.
uint32(idx) is the Go conversion of the non-negative 64-bit int to uint32. -/
def deriveLoop (serializeCompressed : List Nat → List Nat) :
    List (List Char) → List Nat → List Nat → LoopRes
  | [], data, chainCode => .ok data chainCode
  | part :: rest, data, chainCode =>
    match parseToken part with
    | .panic => .panic
    | .err e => .err e
    | .ok i harden =>
      let r := derivePrivateKey serializeCompressed data chainCode
        (i.toNat % 2 ^ 32) harden
      deriveLoop serializeCompressed rest r.1 r.2

/-- Go DerivePrivateKeyForPath: split the path, fold the loop body, then the
defensive final length check (n := copy(derivedKey[:], data[:])).  All error
returns carry the zero [32]byte value. -/
def DerivePrivateKeyForPath (serializeCompressed : List Nat → List Nat)
    (privKeyBytes chainCode : List Nat) (path : List Char) : DeriveOutcome :=
  match deriveLoop serializeCompressed (splitSlash path) privKeyBytes chainCode with
  | .panic => .panic
  | .err e => .err (List.replicate 32 0) e
  | .ok data _ =>
    let n := min 32 data.length
    if n ≠ 32 ∨ data.length ≠ 32 then .err (List.replicate 32 0) .lengthMismatch
    else .ok (data.take n ++ List.replicate (32 - n) 0)

/-! ### BIP44Params -/

/-- Go BIP44Params: a 5-level BIP32 path.  The Go fields are uint32 (modelled
as naturals; theorems carry the < 2^32 bounds) and a bool. -/
structure BIP44Params where
  Purpose : Nat
  CoinType : Nat
  Account : Nat
  Change : Bool
  AddressIndex : Nat

/-- Go (BIP44Params).DerivationPath: the five indices as an array, with the
change flag encoded as 0 or 1. -/
def BIP44Params.DerivationPath (p : BIP44Params) : List Nat :=
  [p.Purpose, p.CoinType, p.Account, if p.Change then 1 else 0, p.AddressIndex]

/-- Decimal digit character for d < 10. -/
def digitChar (d : Nat) : Char := Char.ofNat (48 + d)

/-- Decimal rendering of a natural number, most significant digit first
(fueled for kernel reduction; natToChars supplies sufficient fuel). -/
def natToCharsAux : Nat → Nat → List Char → List Char
  | 0, _, acc => acc
  | fuel + 1, n, acc =>
    if n < 10 then digitChar n :: acc
    else natToCharsAux fuel (n / 10) (digitChar (n % 10) :: acc)

/-- Decimal rendering of a natural number, as Go fmt's %d produces it. -/
def natToChars (n : Nat) : List Char := natToCharsAux (n + 1) n []

/-- Go (BIP44Params).String: the canonical form
purpose'/coinType'/account'/change/addressIndex (fmt.Sprintf with %d). -/
def BIP44Params.String (p : BIP44Params) : List Char :=
  natToChars p.Purpose ++ [apos, slash] ++
  natToChars p.CoinType ++ [apos, slash] ++
  natToChars p.Account ++ [apos, slash] ++
  (if p.Change then [digitChar 1] else [digitChar 0]) ++ [slash] ++
  natToChars p.AddressIndex

/-- The token sequence a path denotes, when every token is accepted: the
PathParser of the specification, assembled from the same per-token logic the
derivation loop runs.  Indices are recorded after the uint32 conversion. -/
def parseTokens : List (List Char) → Option (List (Nat × Bool))
  | [] => some []
  | part :: rest =>
    match parseToken part with
    | .ok i harden => (parseTokens rest).map (fun l => (i.toNat % 2 ^ 32, harden) :: l)
    | _ => none

/-- Parse a whole path string into derivation segments. -/
def parsePath (path : List Char) : Option (List (Nat × Bool)) :=
  parseTokens (splitSlash path)

/-- A trivial stand-in for the external compressed-public-key serializer,
used to instantiate closed statements (hardened derivation never calls it). -/
def ser0 : List Nat → List Nat := fun _ => []

/-! ### Byte-encoding lemmas -/

theorem beBytes_length (w x : Nat) : (beBytes w x).length = w := by
  induction w generalizing x with
  | zero => rfl
  | succ w ih => simp [beBytes, ih]

theorem fromBytes_concat (l : List Nat) (b : Nat) :
    fromBytes (l ++ [b]) = fromBytes l * 256 + b := by
  simp [fromBytes, List.foldl_append]

theorem fromBytes_beBytes {w x : Nat} (h : x < 256 ^ w) :
    fromBytes (beBytes w x) = x := by
  induction w generalizing x with
  | zero =>
    have : x = 0 := by simpa using h
    simp [this, beBytes, fromBytes]
  | succ w ih =>
    have hx : x / 256 < 256 ^ w := by
      rw [Nat.div_lt_iff_lt_mul (by norm_num)]
      calc x < 256 ^ (w + 1) := h
        _ = 256 ^ w * 256 := by ring
    rw [beBytes, fromBytes_concat, ih hx]
    have := Nat.div_add_mod x 256
    omega

theorem beBytes_zero (w : Nat) : beBytes w 0 = List.replicate w 0 := by
  induction w with
  | zero => rfl
  | succ w ih => rw [beBytes, Nat.zero_div, ih, List.replicate_succ']

theorem foldl_replicate_zero (k : Nat) :
    List.foldl (fun acc b => acc * 256 + b) 0 (List.replicate k 0) = 0 := by
  induction k with
  | zero => rfl
  | succ k ih => simpa [List.replicate_succ] using ih

theorem fromBytes_replicate_zero_append (k : Nat) (l : List Nat) :
    fromBytes (List.replicate k 0 ++ l) = fromBytes l := by
  simp [fromBytes, List.foldl_append, foldl_replicate_zero]

theorem minBytesAux_congr (s : Nat) : ∀ f1 f2, s ≤ f1 → s ≤ f2 →
    minBytesAux f1 s = minBytesAux f2 s := by
  induction s using Nat.strong_induction_on with
  | _ s ih =>
    intro f1 f2 h1 h2
    match f1, f2 with
    | 0, 0 => rfl
    | 0, b + 1 =>
      have : s = 0 := Nat.le_zero.mp h1
      simp [this, minBytesAux]
    | a + 1, 0 =>
      have : s = 0 := Nat.le_zero.mp h2
      simp [this, minBytesAux]
    | a + 1, b + 1 =>
      by_cases hs : s = 0
      · simp [hs, minBytesAux]
      · have hlt : s / 256 < s := Nat.div_lt_self (Nat.pos_of_ne_zero hs) (by norm_num)
        simp only [minBytesAux, if_neg hs]
        rw [ih (s / 256) hlt a b (by omega) (by omega)]

theorem minBytes_eq (s : Nat) :
    minBytes s = if s = 0 then [] else minBytes (s / 256) ++ [s % 256] := by
  by_cases hs : s = 0
  · simp [hs, minBytes, minBytesAux]
  · obtain ⟨t, rfl⟩ : ∃ t, s = t + 1 := ⟨s - 1, by omega⟩
    simp only [if_neg hs, minBytes]
    rw [show minBytesAux (t + 1) (t + 1) = minBytesAux t ((t + 1) / 256) ++
      [(t + 1) % 256] by simp [minBytesAux]]
    have hle : (t + 1) / 256 ≤ t := by
      have := Nat.div_lt_self (Nat.succ_pos t) (show 1 < 256 by norm_num)
      omega
    congr 1
    exact minBytesAux_congr _ _ _ hle (by omega)

theorem pad_minBytes (w : Nat) : ∀ s, s < 256 ^ w →
    List.replicate (w - (minBytes s).length) 0 ++ minBytes s = beBytes w s := by
  induction w with
  | zero =>
    intro s hs
    have : s = 0 := by simpa using hs
    simp [this, minBytes, minBytesAux, beBytes]
  | succ w ih =>
    intro s hs
    by_cases h0 : s = 0
    · rw [h0, beBytes_zero]
      simp [minBytes, minBytesAux]
    · rw [minBytes_eq s, if_neg h0]
      have hdiv : s / 256 < 256 ^ w := by
        rw [Nat.div_lt_iff_lt_mul (by norm_num)]
        calc s < 256 ^ (w + 1) := hs
          _ = 256 ^ w * 256 := by ring
      have := ih (s / 256) hdiv
      rw [List.length_append, List.length_singleton,
        show w + 1 - ((minBytes (s / 256)).length + 1) = w - (minBytes (s / 256)).length
          from by omega,
        show beBytes (w + 1) s = beBytes w (s / 256) ++ [s % 256] from rfl,
        ← this, List.append_assoc]

theorem secpN_pos : 0 < secpN := by decide

theorem secpN_lt : secpN < 256 ^ 32 := by decide

theorem addScalars_eq (a b : List Nat) :
    addScalars a b = beBytes 32 ((fromBytes a + fromBytes b) % secpN) := by
  have hlt : (fromBytes a + fromBytes b) % secpN < 256 ^ 32 :=
    lt_trans (Nat.mod_lt _ secpN_pos) secpN_lt
  simpa [addScalars] using pad_minBytes 32 _ hlt

theorem addScalars_length (a b : List Nat) : (addScalars a b).length = 32 := by
  rw [addScalars_eq]; exact beBytes_length 32 _

theorem fromBytes_addScalars (a b : List Nat) :
    fromBytes (addScalars a b) = (fromBytes a + fromBytes b) % secpN := by
  rw [addScalars_eq]
  exact fromBytes_beBytes (lt_trans (Nat.mod_lt _ secpN_pos) secpN_lt)

theorem fromBytes_addScalars_lt (a b : List Nat) :
    fromBytes (addScalars a b) < secpN := by
  rw [fromBytes_addScalars]; exact Nat.mod_lt _ secpN_pos

/-! ### Digest-length lemmas -/

theorem stateBytes_length (s : ShaState) : (stateBytes s).length = 64 := by
  simp [stateBytes, beBytes_length]

theorem sha512_length (m : List Nat) : (sha512 m).length = 64 := by
  simp only [sha512]; exact stateBytes_length _

theorem hmacSHA512_length (key msg : List Nat) :
    (hmacSHA512 key msg).length = 64 := by
  simp only [hmacSHA512]; exact sha512_length _

theorem i64_fst (key data : List Nat) :
    (i64 key data).1 = (hmacSHA512 key data).take 32 := rfl

theorem i64_snd (key data : List Nat) :
    (i64 key data).2 = (hmacSHA512 key data).drop 32 := by
  simp only [i64]
  exact List.take_of_length_le (by rw [List.length_drop, hmacSHA512_length])

theorem i64_fst_length (key data : List Nat) : (i64 key data).1.length = 32 := by
  rw [i64_fst, List.length_take, hmacSHA512_length]; omega

theorem i64_snd_length (key data : List Nat) : (i64 key data).2.length = 32 := by
  rw [i64_snd, List.length_drop, hmacSHA512_length]

/-! ### Bit lemmas for the hardening OR -/

theorem lor_two_pow_of_lt {n a : Nat} (h : a < 2 ^ n) :
    a ||| 2 ^ n = 2 ^ n + a := by
  apply Nat.eq_of_testBit_eq
  intro i
  rw [Nat.testBit_or]
  rcases Nat.lt_trichotomy i n with hi | rfl | hi
  · rw [Nat.testBit_two_pow_of_ne (Nat.ne_of_gt hi),
      Nat.testBit_two_pow_add_gt hi, Bool.or_false]
  · rw [Nat.testBit_two_pow_self, Nat.testBit_two_pow_add_eq,
      Nat.testBit_lt_two_pow h, Bool.or_true]
    rfl
  · have ha : a < 2 ^ i := lt_trans h (Nat.pow_lt_pow_right (by norm_num) hi)
    have hs : 2 ^ n + a < 2 ^ i := by
      have h1 : 2 ^ n + a < 2 ^ (n + 1) := by
        have := Nat.pow_succ 2 n
        omega
      exact lt_of_lt_of_le h1 (Nat.pow_le_pow_right (by norm_num) hi)
    rw [Nat.testBit_lt_two_pow ha, Nat.testBit_lt_two_pow hs,
      Nat.testBit_two_pow_of_ne (Nat.ne_of_lt hi), Bool.or_false]

theorem lor_two_pow_of_testBit {n x : Nat} (h : x.testBit n = true) :
    x ||| 2 ^ n = x := by
  apply Nat.eq_of_testBit_eq
  intro i
  rw [Nat.testBit_or]
  by_cases hi : n = i
  · subst hi; rw [h, Nat.testBit_two_pow_self, Bool.or_true]
  · rw [Nat.testBit_two_pow_of_ne hi, Bool.or_false]

theorem hardIndex_collision {v : Nat} (h1 : 2 ^ 31 ≤ v) (h2 : v < 2 ^ 32) :
    v ||| 2 ^ 31 = (v - 2 ^ 31) ||| 2 ^ 31 := by
  have ha : v - 2 ^ 31 < 2 ^ 31 := by omega
  have hv : v = 2 ^ 31 + (v - 2 ^ 31) := by omega
  have hbit : v.testBit 31 = true := by
    rw [hv, Nat.testBit_two_pow_add_eq, Nat.testBit_lt_two_pow ha]
    rfl
  rw [lor_two_pow_of_testBit hbit, lor_two_pow_of_lt ha]
  omega

/-! ### Derivation-step and loop lemmas -/

theorem derivePrivateKey_spec (ser : List Nat → List Nat) (pk cc : List Nat)
    (idx : Nat) (hd : Bool) :
    derivePrivateKey ser pk cc idx hd =
      (beBytes 32 ((fromBytes pk + fromBytes ((hmacSHA512 cc
          (if hd then (0 :: pk) ++ beBytes 4 (idx ||| 0x80000000)
           else ser pk ++ beBytes 4 idx)).take 32)) % secpN),
       (hmacSHA512 cc
          (if hd then (0 :: pk) ++ beBytes 4 (idx ||| 0x80000000)
           else ser pk ++ beBytes 4 idx)).drop 32) := by
  cases hd <;>
    simp [derivePrivateKey, uint32ToBytes, addScalars_eq, i64_fst, i64_snd]

theorem derivePrivateKey_fst_lt (ser : List Nat → List Nat) (pk cc : List Nat)
    (idx : Nat) (hd : Bool) :
    fromBytes (derivePrivateKey ser pk cc idx hd).1 < secpN := by
  simp only [derivePrivateKey]
  exact fromBytes_addScalars_lt _ _

theorem derivePrivateKey_fst_length (ser : List Nat → List Nat)
    (pk cc : List Nat) (idx : Nat) (hd : Bool) :
    (derivePrivateKey ser pk cc idx hd).1.length = 32 := by
  simp only [derivePrivateKey]
  exact addScalars_length _ _

theorem deriveLoop_parse (ser : List Nat → List Nat) :
    ∀ (parts : List (List Char)) (segs : List (Nat × Bool)) (d cc : List Nat),
      parseTokens parts = some segs → d.length = 32 →
      ∃ d' c', deriveLoop ser parts d cc = .ok d' c' ∧ d'.length = 32 := by
  intro parts
  induction parts with
  | nil =>
    intro segs d cc _ hlen
    exact ⟨d, cc, rfl, hlen⟩
  | cons part rest ih =>
    intro segs d cc hparse _
    cases hp : parseToken part with
    | panic => rw [parseTokens, hp] at hparse; cases hparse
    | err e => rw [parseTokens, hp] at hparse; cases hparse
    | ok i harden =>
      rw [parseTokens, hp] at hparse
      obtain ⟨segs', hsegs', _⟩ := Option.map_eq_some'.mp hparse
      obtain ⟨d', c', hloop, hlen'⟩ := ih segs' _ _ hsegs'
        (derivePrivateKey_fst_length ser d cc (i.toNat % 2 ^ 32) harden)
      exact ⟨d', c', by rw [deriveLoop, hp]; exact hloop, hlen'⟩

theorem deriveLoop_preserves (ser : List Nat → List Nat) :
    ∀ (parts : List (List Char)) (d cc d' c' : List Nat),
      deriveLoop ser parts d cc = .ok d' c' →
      fromBytes d < secpN → fromBytes d' < secpN := by
  intro parts
  induction parts with
  | nil =>
    intro d cc d' c' h hd
    rw [deriveLoop] at h
    cases h
    exact hd
  | cons part rest ih =>
    intro d cc d' c' h _
    cases hp : parseToken part with
    | panic => rw [deriveLoop, hp] at h; cases h
    | err e => rw [deriveLoop, hp] at h; cases h
    | ok i harden =>
      rw [deriveLoop, hp] at h
      exact ih _ _ _ _ h (derivePrivateKey_fst_lt ser d cc (i.toNat % 2 ^ 32) harden)

/-! ### Decimal rendering and parsing round-trip -/

theorem digitVal_digitChar {d : Nat} (h : d < 10) :
    digitVal (digitChar d) = some d := by
  interval_cases d <;> decide

theorem digitChar_ne_apos {d : Nat} (h : d < 10) : digitChar d ≠ apos := by
  interval_cases d <;> decide

theorem digitChar_ne_slash {d : Nat} (h : d < 10) : digitChar d ≠ slash := by
  interval_cases d <;> decide

theorem digitChar_ne_minus {d : Nat} (h : d < 10) : digitChar d ≠ Char.ofNat 45 := by
  interval_cases d <;> decide

theorem digitChar_ne_plus {d : Nat} (h : d < 10) : digitChar d ≠ Char.ofNat 43 := by
  interval_cases d <;> decide

theorem natToCharsAux_acc (n : Nat) : ∀ (f : Nat) (acc : List Char), n < f →
    natToCharsAux f n acc = natToChars n ++ acc := by
  induction n using Nat.strong_induction_on with
  | _ n ih =>
    intro f acc hf
    obtain ⟨f', rfl⟩ : ∃ f', f = f' + 1 := ⟨f - 1, by omega⟩
    by_cases h10 : n < 10
    · simp [natToCharsAux, natToChars, h10]
    · have hdiv : n / 10 < n := Nat.div_lt_self (by omega) (by norm_num)
      rw [natToCharsAux, if_neg h10, ih (n / 10) hdiv f' _ (by omega),
        show natToChars n = natToCharsAux (n + 1) n [] from rfl,
        natToCharsAux, if_neg h10, ih (n / 10) hdiv n _ (by omega),
        List.append_assoc]
      rfl

theorem natToChars_eq (n : Nat) :
    natToChars n =
      if n < 10 then [digitChar n]
      else natToChars (n / 10) ++ [digitChar (n % 10)] := by
  by_cases h10 : n < 10
  · simp [natToChars, natToCharsAux, h10]
  · have hdiv : n / 10 < n := Nat.div_lt_self (by omega) (by norm_num)
    rw [if_neg h10, show natToChars n = natToCharsAux (n + 1) n [] from rfl,
      natToCharsAux, if_neg h10, natToCharsAux_acc (n / 10) n _ (by omega)]

theorem natToChars_mem (n : Nat) : ∀ c ∈ natToChars n, ∃ d, d < 10 ∧ c = digitChar d := by
  induction n using Nat.strong_induction_on with
  | _ n ih =>
    intro c hc
    rw [natToChars_eq] at hc
    by_cases h10 : n < 10
    · rw [if_pos h10, List.mem_singleton] at hc
      exact ⟨n, h10, hc⟩
    · rw [if_neg h10, List.mem_append, List.mem_singleton] at hc
      rcases hc with hc | hc
      · exact ih (n / 10) (Nat.div_lt_self (by omega) (by norm_num)) c hc
      · exact ⟨n % 10, Nat.mod_lt _ (by norm_num), hc⟩

theorem natToChars_ne_nil (n : Nat) : natToChars n ≠ [] := by
  rw [natToChars_eq]
  by_cases h10 : n < 10 <;> simp [h10]

theorem parseDigitsGo_natToChars (n : Nat) : ∀ (acc : Nat) (tail : List Char),
    parseDigitsGo (natToChars n ++ tail) acc =
      parseDigitsGo tail (acc * 10 ^ (natToChars n).length + n) := by
  induction n using Nat.strong_induction_on with
  | _ n ih =>
    intro acc tail
    by_cases h10 : n < 10
    · rw [natToChars_eq, if_pos h10]
      simp [parseDigitsGo, digitVal_digitChar h10]
    · have hdiv : n / 10 < n := Nat.div_lt_self (by omega) (by norm_num)
      rw [natToChars_eq, if_neg h10, List.append_assoc,
        ih (n / 10) hdiv acc _, List.singleton_append, parseDigitsGo,
        digitVal_digitChar (Nat.mod_lt _ (by norm_num)),
        List.length_append, List.length_singleton]
      show parseDigitsGo tail ((acc * 10 ^ (natToChars (n / 10)).length + n / 10) * 10
        + n % 10) = _
      congr 1
      rw [pow_succ, ← mul_assoc]
      generalize acc * 10 ^ (natToChars (n / 10)).length = x
      omega

theorem natToChars_head (n : Nat) :
    ∃ d t, d < 10 ∧ natToChars n = digitChar d :: t := by
  induction n using Nat.strong_induction_on with
  | _ n ih =>
    rw [natToChars_eq]
    by_cases h10 : n < 10
    · exact ⟨n, [], h10, by rw [if_pos h10]⟩
    · obtain ⟨d, t, hd, ht⟩ := ih (n / 10) (Nat.div_lt_self (by omega) (by norm_num))
      exact ⟨d, t ++ [digitChar (n % 10)], hd, by rw [if_neg h10, ht]; rfl⟩

theorem goAtoi_natToChars {n : Nat} (h : n ≤ 2 ^ 63 - 1) :
    goAtoi (natToChars n) = some (n : Int) := by
  obtain ⟨d, t, hd, ht⟩ := natToChars_head n
  have hdigits : parseDigitsGo (natToChars n) 0 = some n := by
    have := parseDigitsGo_natToChars n 0 []
    simpa [parseDigitsGo] using this
  rw [ht]
  rw [ht] at hdigits
  simp only [goAtoi, if_neg (digitChar_ne_minus hd), if_neg (digitChar_ne_plus hd)]
  rw [hdigits]
  simp
  omega

/-! ### Token and path-splitting lemmas -/

theorem parseToken_eq_of_ne_nil {part : List Char} (h : part ≠ []) :
    parseToken part =
      match goAtoi (stripApos part) with
      | none => .err .parse
      | some i =>
        if i < 0 then .err .negative else .ok i (part.getLast? == some apos) := by
  cases part with
  | nil => exact absurd rfl h
  | cons c cs => rfl

theorem parseToken_panic_iff (part : List Char) :
    parseToken part = .panic ↔ part = [] := by
  cases part with
  | nil => simp [parseToken]
  | cons c cs =>
    rw [parseToken_eq_of_ne_nil (List.cons_ne_nil c cs)]
    cases hg : goAtoi (stripApos (c :: cs)) with
    | none => simp
    | some i => by_cases hi : i < 0 <;> simp [hi]

theorem parseToken_negative {part : List Char} {i : Int}
    (hg : goAtoi (stripApos part) = some i) (hi : i < 0) :
    parseToken part = .err .negative := by
  have hne : part ≠ [] := by
    rintro rfl
    rw [show stripApos [] = [] from rfl] at hg
    cases hg
  rw [parseToken_eq_of_ne_nil hne, hg]
  simp [hi]

theorem parseToken_hardened {n : Nat} (h : n ≤ 2 ^ 63 - 1) :
    parseToken (natToChars n ++ [apos]) = .ok (n : Int) true := by
  have hne : natToChars n ++ [apos] ≠ [] := by simp
  have hlast : (natToChars n ++ [apos]).getLast? = some apos := List.getLast?_concat _
  have hstrip : stripApos (natToChars n ++ [apos]) = natToChars n := by
    simp [stripApos, hlast]
  have hnn : ¬((n : Int) < 0) := by omega
  rw [parseToken_eq_of_ne_nil hne, hstrip, goAtoi_natToChars h]
  simp [hnn, hlast]

theorem parseToken_plain {n : Nat} (h : n ≤ 2 ^ 63 - 1) :
    parseToken (natToChars n) = .ok (n : Int) false := by
  have hne := natToChars_ne_nil n
  obtain ⟨a, hgl⟩ : ∃ a, (natToChars n).getLast? = some a := by
    cases hg : (natToChars n).getLast? with
    | none => exact absurd (List.getLast?_eq_none_iff.mp hg) hne
    | some a => exact ⟨a, rfl⟩
  obtain ⟨d, hd, rfl⟩ := natToChars_mem n a (List.mem_of_getLast?_eq_some hgl)
  have hbeq : ((natToChars n).getLast? == some apos) = false := by
    rw [hgl]
    exact beq_eq_false_iff_ne.mpr (by simpa using digitChar_ne_apos hd)
  have hstrip : stripApos (natToChars n) = natToChars n := by
    simp [stripApos, hbeq]
  have hnn : ¬((n : Int) < 0) := by omega
  rw [parseToken_eq_of_ne_nil hne, hstrip, goAtoi_natToChars h]
  simp [hnn, hbeq]

theorem splitSlash_ne_nil (l : List Char) : splitSlash l ≠ [] := by
  cases l with
  | nil => simp [splitSlash]
  | cons c rest =>
    rw [splitSlash]
    by_cases h : c = slash
    · simp [h]
    · rw [if_neg h]
      cases splitSlash rest <;> simp

theorem splitSlash_no_slash : ∀ xs : List Char, (∀ c ∈ xs, c ≠ slash) →
    splitSlash xs = [xs] := by
  intro xs
  induction xs with
  | nil => intro _; rfl
  | cons c rest ih =>
    intro h
    have hc : c ≠ slash := h c (List.mem_cons_self c rest)
    rw [splitSlash, if_neg hc, ih (fun x hx => h x (List.mem_cons_of_mem c hx))]

theorem splitSlash_append (rest : List Char) : ∀ xs : List Char,
    (∀ c ∈ xs, c ≠ slash) →
    splitSlash (xs ++ slash :: rest) = xs :: splitSlash rest := by
  intro xs
  induction xs with
  | nil =>
    intro _
    rw [List.nil_append, splitSlash, if_pos rfl]
  | cons c xs ih =>
    intro h
    have hc : c ≠ slash := h c (List.mem_cons_self c xs)
    rw [List.cons_append, splitSlash, if_neg hc,
      ih (fun x hx => h x (List.mem_cons_of_mem c hx))]

theorem deriveLoop_no_panic (ser : List Nat → List Nat) :
    ∀ (parts : List (List Char)) (d cc : List Nat),
      (∀ t ∈ parts, t ≠ []) → deriveLoop ser parts d cc ≠ .panic := by
  intro parts
  induction parts with
  | nil => intro d cc _; simp [deriveLoop]
  | cons part rest ih =>
    intro d cc h
    cases hp : parseToken part with
    | panic =>
      exact absurd ((parseToken_panic_iff part).mp hp)
        (h part (List.mem_cons_self _ _))
    | err e => rw [deriveLoop, hp]; simp
    | ok i harden =>
      rw [deriveLoop, hp]
      exact ih _ _ (fun t ht => h t (List.mem_cons_of_mem _ ht))

theorem D_eq_panic {ser : List Nat → List Nat} {pk cc : List Nat}
    {path : List Char}
    (hl : deriveLoop ser (splitSlash path) pk cc = .panic) :
    DerivePrivateKeyForPath ser pk cc path = .panic := by
  rw [DerivePrivateKeyForPath, hl]

theorem D_eq_err {ser : List Nat → List Nat} {pk cc : List Nat}
    {path : List Char} {e : PathError}
    (hl : deriveLoop ser (splitSlash path) pk cc = .err e) :
    DerivePrivateKeyForPath ser pk cc path = .err (List.replicate 32 0) e := by
  rw [DerivePrivateKeyForPath, hl]

theorem D_eq_ok {ser : List Nat → List Nat} {pk cc : List Nat}
    {path : List Char} {data c' : List Nat}
    (hl : deriveLoop ser (splitSlash path) pk cc = .ok data c') :
    DerivePrivateKeyForPath ser pk cc path =
      if min 32 data.length ≠ 32 ∨ data.length ≠ 32
      then .err (List.replicate 32 0) .lengthMismatch
      else .ok (data.take (min 32 data.length) ++
        List.replicate (32 - min 32 data.length) 0) := by
  rw [DerivePrivateKeyForPath, hl]

/-! ### Claims -/

/-- Claim C1: one child-derivation step computes (IL, IR) as the halves of
HMAC-SHA512 keyed by the chain code over 0x00 plus privateKey plus
bigEndian32(index OR 0x80000000) when hardened, or the compressed public key
plus bigEndian32(index) when non-hardened, and returns the child key
(privateKey + IL) mod N re-encoded as 32 big-endian left-zero-padded bytes,
with IR as the new chain code. -/
theorem claim_C1 (ser : List Nat → List Nat) (pk cc : List Nat) (idx : Nat)
    (harden : Bool) (hpk : pk.length = 32) (hcc : cc.length = 32)
    (hidx : idx < 2 ^ 31) :
    derivePrivateKey ser pk cc idx harden =
      (beBytes 32 ((fromBytes pk + fromBytes ((hmacSHA512 cc
          (if harden then (0 :: pk) ++ beBytes 4 (idx ||| 0x80000000)
           else ser pk ++ beBytes 4 idx)).take 32)) % secpN),
       (hmacSHA512 cc
          (if harden then (0 :: pk) ++ beBytes 4 (idx ||| 0x80000000)
           else ser pk ++ beBytes 4 idx)).drop 32) :=
  derivePrivateKey_spec ser pk cc idx harden

set_option maxRecDepth 8000 in
/-- Witness for claim C1 at a concrete hardened input. -/
theorem claim_C1_witness :
    derivePrivateKey ser0 (List.replicate 32 1) (List.replicate 32 2) 0 true =
      (beBytes 32 ((fromBytes (List.replicate 32 1) +
          fromBytes ((hmacSHA512 (List.replicate 32 2)
            ((0 :: List.replicate 32 1) ++ beBytes 4 (0 ||| 0x80000000))).take 32)) % secpN),
       (hmacSHA512 (List.replicate 32 2)
          ((0 :: List.replicate 32 1) ++ beBytes 4 (0 ||| 0x80000000))).drop 32) := by
  exact claim_C1 ser0 (List.replicate 32 1) (List.replicate 32 2) 0 true
    (by decide) (by decide) (by decide)

/-- Claim C2: for every seed, master derivation returns the left 32 bytes of
HMAC-SHA512 keyed by the ASCII string "Bitcoin seed" over the seed as master
private key and the right 32 bytes as master chain code; it is a total pure
function, so determinism and absence of a failure path are inherent. -/
theorem claim_C2 (seed : List Nat) :
    ComputeMastersFromSeed seed =
      ((hmacSHA512 (("Bitcoin seed").toList.map Char.toNat) seed).take 32,
       (hmacSHA512 (("Bitcoin seed").toList.map Char.toNat) seed).drop 32) ∧
    (ComputeMastersFromSeed seed).1.length = 32 ∧
    (ComputeMastersFromSeed seed).2.length = 32 := by
  refine ⟨?_, i64_fst_length _ _, i64_snd_length _ _⟩
  show i64 _ seed = _
  rw [← i64_fst, ← i64_snd]

/-- Claim C3: addScalars interprets its arguments as unsigned big-endian
integers and returns the sum mod N as exactly 32 left-zero-padded bytes;
addMod(N-1, 1) is the zero array and addMod(a, 0) re-encodes a mod N. -/
theorem claim_C3 :
    (∀ a b : List Nat,
      addScalars a b = beBytes 32 ((fromBytes a + fromBytes b) % secpN)) ∧
    addScalars (beBytes 32 (secpN - 1)) (beBytes 32 1) = List.replicate 32 0 ∧
    (∀ a : List Nat, a.length = 32 →
      addScalars a (List.replicate 32 0) = beBytes 32 (fromBytes a % secpN)) := by
  refine ⟨addScalars_eq, ?_, ?_⟩
  · rw [addScalars_eq, fromBytes_beBytes (show secpN - 1 < 256 ^ 32 by decide),
      fromBytes_beBytes (show (1 : Nat) < 256 ^ 32 by decide),
      show secpN - 1 + 1 = secpN from by have := secpN_pos; omega,
      Nat.mod_self, beBytes_zero]
  · intro a _
    rw [addScalars_eq,
      show fromBytes (List.replicate 32 0) = 0 from by decide, Nat.add_zero]

/-- Witness for claim C3's hypothesis-bearing conjunct at a concrete input. -/
theorem claim_C3_witness :
    addScalars (List.replicate 32 0) (List.replicate 32 0) =
      beBytes 32 (fromBytes (List.replicate 32 0) % secpN) :=
  claim_C3.2.2 (List.replicate 32 0) (by decide)

/-- Claim C10: every child-derivation step yields a key whose big-endian
value is strictly below the secp256k1 order N, and this bound is preserved
across every step of the path fold. -/
theorem claim_C10 :
    (∀ (ser : List Nat → List Nat) (pk cc : List Nat) (idx : Nat) (hd : Bool),
      fromBytes (derivePrivateKey ser pk cc idx hd).1 < secpN) ∧
    (∀ (ser : List Nat → List Nat) (parts : List (List Char))
        (d cc d' c' : List Nat),
      deriveLoop ser parts d cc = .ok d' c' → fromBytes d < secpN →
      fromBytes d' < secpN) :=
  ⟨derivePrivateKey_fst_lt,
   fun ser parts d cc d' c' h hd => deriveLoop_preserves ser parts d cc d' c' h hd⟩

/-- Witness for claim C10 at the empty fold from the zero key. -/
theorem claim_C10_witness : fromBytes (List.replicate 32 0) < secpN :=
  claim_C10.2 ser0 [] (List.replicate 32 0) (List.replicate 32 0)
    (List.replicate 32 0) (List.replicate 32 0) rfl (by decide)

/-- Counterexample to claim C4 as stated: on the empty path string the Go
code evaluates part[len(part)-1:] on an empty token and panics (slice bounds
out of range) instead of failing with InvalidTokenError. -/
theorem claim_C4_counterexample :
    DerivePrivateKeyForPath ser0 (List.replicate 32 0) (List.replicate 32 0) []
      = .panic := by
  decide

/-- Claim C4 (amended): for every path string all of whose tokens are
nonempty, derivation is total and returns either a derived key or an error
value; a nonempty token whose apostrophe-stripped remainder does not parse
as a base-10 integer fails with InvalidTokenError; an empty token (as
produced by an empty path string or consecutive slashes) instead causes a
runtime panic. -/
theorem claim_C4_amended (ser : List Nat → List Nat) (pk cc : List Nat)
    (path : List Char) :
    ((∀ t ∈ splitSlash path, t ≠ []) →
      (∃ k, DerivePrivateKeyForPath ser pk cc path = .ok k) ∨
      (∃ e, DerivePrivateKeyForPath ser pk cc path =
        .err (List.replicate 32 0) e)) ∧
    (∀ part : List Char, part ≠ [] → goAtoi (stripApos part) = none →
      parseToken part = .err .parse) ∧
    parseToken [] = .panic := by
  refine ⟨?_, ?_, rfl⟩
  · intro h
    cases hl : deriveLoop ser (splitSlash path) pk cc with
    | panic => exact absurd hl (deriveLoop_no_panic ser _ pk cc h)
    | err e => exact Or.inr ⟨e, D_eq_err hl⟩
    | ok data c' =>
      by_cases hlen : data.length = 32
      · exact Or.inl ⟨data.take (min 32 data.length) ++
          List.replicate (32 - min 32 data.length) 0,
          by rw [D_eq_ok hl, if_neg (by omega)]⟩
      · exact Or.inr ⟨.lengthMismatch,
          by rw [D_eq_ok hl, if_pos (Or.inr hlen)]⟩
  · intro part hne hg
    rw [parseToken_eq_of_ne_nil hne, hg]

/-- Witness for claim C4 (amended) at concrete inputs. -/
theorem claim_C4_witness :
    ((∃ k, DerivePrivateKeyForPath ser0 (List.replicate 32 0)
        (List.replicate 32 0) [Char.ofNat 48] = .ok k) ∨
     (∃ e, DerivePrivateKeyForPath ser0 (List.replicate 32 0)
        (List.replicate 32 0) [Char.ofNat 48] =
          .err (List.replicate 32 0) e)) ∧
    parseToken [Char.ofNat 120] = .err .parse :=
  ⟨(claim_C4_amended ser0 (List.replicate 32 0) (List.replicate 32 0)
      [Char.ofNat 48]).1 (by decide),
   (claim_C4_amended ser0 (List.replicate 32 0) (List.replicate 32 0)
      [Char.ofNat 48]).2.1 [Char.ofNat 120] (by decide) (by decide)⟩

/-- Claim C7: whenever path derivation returns an error value, the returned
key is the all-zero 32-byte array, regardless of how many segments had
already been derived. -/
theorem claim_C7 (ser : List Nat → List Nat) (pk cc : List Nat)
    (path : List Char) (k : List Nat) (e : PathError)
    (h : DerivePrivateKeyForPath ser pk cc path = .err k e) :
    k = List.replicate 32 0 := by
  cases hl : deriveLoop ser (splitSlash path) pk cc with
  | panic => rw [D_eq_panic hl] at h; cases h
  | err e' =>
    rw [D_eq_err hl] at h
    injection h with h1 h2
    exact h1.symm
  | ok data c' =>
    rw [D_eq_ok hl] at h
    by_cases hc : min 32 data.length ≠ 32 ∨ data.length ≠ 32
    · rw [if_pos hc] at h
      injection h with h1 h2
      exact h1.symm
    · rw [if_neg hc] at h
      cases h

/-- Witness for claim C7 at a concrete failing path. -/
theorem claim_C7_witness : (List.replicate 32 0 : List Nat) = List.replicate 32 0 :=
  claim_C7 ser0 (List.replicate 32 0) (List.replicate 32 0) [Char.ofNat 120]
    (List.replicate 32 0) .parse (by decide)

/-- Claim C8: when every token of the path parses, derivation succeeds with a
key of exactly 32 bytes; the LengthMismatchError branch is unreachable. -/
theorem claim_C8 (ser : List Nat → List Nat) (pk cc : List Nat)
    (path : List Char) (segs : List (Nat × Bool))
    (hparse : parsePath path = some segs) (hpk : pk.length = 32) :
    ∃ k, DerivePrivateKeyForPath ser pk cc path = .ok k ∧ k.length = 32 := by
  obtain ⟨d', c', hloop, hlen⟩ :=
    deriveLoop_parse ser (splitSlash path) segs pk cc hparse hpk
  refine ⟨d', ?_, hlen⟩
  rw [D_eq_ok hloop, if_neg (by omega),
    show min 32 d'.length = 32 by omega, Nat.sub_self, List.replicate_zero,
    List.append_nil, List.take_of_length_le (by omega)]

/-- Witness for claim C8 at the concrete path 0. -/
theorem claim_C8_witness :
    ∃ k, DerivePrivateKeyForPath ser0 (List.replicate 32 0)
      (List.replicate 32 0) [Char.ofNat 48] = .ok k ∧ k.length = 32 :=
  claim_C8 ser0 (List.replicate 32 0) (List.replicate 32 0) [Char.ofNat 48]
    [(0, false)] (by decide) (by decide)

/-- Claim C9: the path -1 with apostrophe fails with NegativeIndexError, the
path abc fails with ParseError, and every token whose stripped remainder
parses as a negative integer is rejected with NegativeIndexError. -/
theorem claim_C9 :
    (∀ (ser : List Nat → List Nat) (pk cc : List Nat),
      DerivePrivateKeyForPath ser pk cc [Char.ofNat 45, Char.ofNat 49, apos] =
        .err (List.replicate 32 0) .negative) ∧
    (∀ (ser : List Nat → List Nat) (pk cc : List Nat),
      DerivePrivateKeyForPath ser pk cc
          [Char.ofNat 97, Char.ofNat 98, Char.ofNat 99] =
        .err (List.replicate 32 0) .parse) ∧
    (∀ (part : List Char) (i : Int), goAtoi (stripApos part) = some i → i < 0 →
      parseToken part = .err .negative) :=
  ⟨fun ser pk cc => rfl, fun ser pk cc => rfl,
   fun part i hg hi => parseToken_negative hg hi⟩

/-- Witness for claim C9's hypothesis-bearing conjunct at the token -1. -/
theorem claim_C9_witness : parseToken [Char.ofNat 45, Char.ofNat 49] = .err .negative :=
  claim_C9.2.2 [Char.ofNat 45, Char.ofNat 49] (-1) (by decide) (by decide)

theorem natToChars_no_slash (n : Nat) : ∀ c ∈ natToChars n, c ≠ slash := by
  intro c hc
  obtain ⟨d, hd, rfl⟩ := natToChars_mem n c hc
  exact digitChar_ne_slash hd

theorem hardTok_no_slash (n : Nat) : ∀ c ∈ natToChars n ++ [apos], c ≠ slash := by
  intro c hc
  rcases List.mem_append.mp hc with hc | hc
  · exact natToChars_no_slash n c hc
  · rw [List.mem_singleton] at hc
    subst hc
    decide

theorem parseTokens_cons_ok {part : List Char} {i : Int} {harden : Bool}
    (hp : parseToken part = .ok i harden) (rest : List (List Char)) :
    parseTokens (part :: rest) =
      (parseTokens rest).map (fun l => (i.toNat % 2 ^ 32, harden) :: l) := by
  rw [parseTokens, hp]

theorem parsePath_String (P C A AI : Nat) (chb : Bool)
    (h1 : P < 2 ^ 32) (h2 : C < 2 ^ 32) (h3 : A < 2 ^ 32) (h4 : AI < 2 ^ 32) :
    parsePath (BIP44Params.String ⟨P, C, A, chb, AI⟩) =
      some [(P, true), (C, true), (A, true),
        ((if chb then 1 else 0 : Nat), false), (AI, false)] := by
  have hb1 : P ≤ 2 ^ 63 - 1 := by omega
  have hb2 : C ≤ 2 ^ 63 - 1 := by omega
  have hb3 : A ≤ 2 ^ 63 - 1 := by omega
  have hb4 : AI ≤ 2 ^ 63 - 1 := by omega
  have hstr : BIP44Params.String ⟨P, C, A, chb, AI⟩ =
      (natToChars P ++ [apos]) ++ slash ::
        ((natToChars C ++ [apos]) ++ slash ::
          ((natToChars A ++ [apos]) ++ slash ::
            (natToChars (if chb then 1 else 0) ++ slash :: natToChars AI))) := by
    cases chb <;>
      simp [BIP44Params.String, List.append_assoc,
        show natToChars 1 = [digitChar 1] from rfl,
        show natToChars 0 = [digitChar 0] from rfl]
  rw [parsePath, hstr, splitSlash_append _ _ (hardTok_no_slash P),
    splitSlash_append _ _ (hardTok_no_slash C),
    splitSlash_append _ _ (hardTok_no_slash A),
    splitSlash_append _ _ (natToChars_no_slash _),
    splitSlash_no_slash _ (natToChars_no_slash AI),
    parseTokens_cons_ok (parseToken_hardened hb1),
    parseTokens_cons_ok (parseToken_hardened hb2),
    parseTokens_cons_ok (parseToken_hardened hb3),
    parseTokens_cons_ok (parseToken_plain
      (show (if chb then 1 else 0 : Nat) ≤ 2 ^ 63 - 1 by cases chb <;> decide)),
    parseTokens_cons_ok (parseToken_plain hb4),
    parseTokens]
  simp [Nat.mod_eq_of_lt h1, Nat.mod_eq_of_lt h2, Nat.mod_eq_of_lt h3,
    Nat.mod_eq_of_lt h4,
    Nat.mod_eq_of_lt (show (if chb then 1 else 0 : Nat) < 2 ^ 32
      by cases chb <;> decide)]
  refine ⟨by omega, by omega, by omega, ?_, by omega⟩
  cases chb <;> decide

/-- Claim C5: re-parsing the canonical string of any BIP44Params yields
exactly the five indices of DerivationPath in order, the first three
hardened and the last two not. -/
theorem claim_C5 (p : BIP44Params) (h1 : p.Purpose < 2 ^ 32)
    (h2 : p.CoinType < 2 ^ 32) (h3 : p.Account < 2 ^ 32)
    (h4 : p.AddressIndex < 2 ^ 32) :
    parsePath p.String =
      some (p.DerivationPath.zip [true, true, true, false, false]) := by
  rcases p with ⟨P, C, A, chb, AI⟩
  rw [parsePath_String P C A AI chb h1 h2 h3 h4]
  rfl

/-- Witness for claim C5 at the fundraiser parameters. -/
theorem claim_C5_witness :
    parsePath (BIP44Params.String ⟨44, 996, 0, false, 0⟩) =
      some ((BIP44Params.DerivationPath ⟨44, 996, 0, false, 0⟩).zip
        [true, true, true, false, false]) :=
  claim_C5 ⟨44, 996, 0, false, 0⟩ (by decide) (by decide) (by decide) (by decide)

theorem hardIndex_collision' {v : Nat} (h1 : 2147483648 ≤ v)
    (h2 : v < 4294967296) :
    v ||| 2147483648 = (v - 2147483648) ||| 2147483648 := by
  have h := hardIndex_collision (show 2 ^ 31 ≤ v by omega)
    (show v < 2 ^ 32 by omega)
  norm_num at h
  exact h

/-- Counterexample to claim C6 as stated: the token 9223372036854775808
(that is, 2^63) is at or above 2^31 yet is rejected with the invalid-token
error, because strconv.Atoi overflows the 64-bit int range. -/
theorem claim_C6_counterexample :
    DerivePrivateKeyForPath ser0 (List.replicate 32 0) (List.replicate 32 0)
      (natToChars 9223372036854775808) = .err (List.replicate 32 0) .parse := by
  decide

/-- Claim C6 (amended): path tokens with values in [2^31, 2^63) are accepted
without error (values at or above 2^63 overflow Atoi and are rejected with
the invalid-token error), and a hardened token with value v in [2^31, 2^32)
collides with the hardened-index space after the hardening bit is OR-ed:
derivation yields exactly the same result as for v - 2^31; in particular the
path 2147483648 hardened derives the same child as the path 0 hardened. -/
theorem claim_C6_amended :
    (∀ n : Nat, 2 ^ 31 ≤ n → n < 2 ^ 63 →
      parseToken (natToChars n ++ [apos]) = .ok (n : Int) true ∧
      parseToken (natToChars n) = .ok (n : Int) false) ∧
    (∀ (ser : List Nat → List Nat) (pk cc : List Nat) (v : Nat),
      2 ^ 31 ≤ v → v < 2 ^ 32 →
      derivePrivateKey ser pk cc v true =
        derivePrivateKey ser pk cc (v - 2 ^ 31) true) ∧
    (∀ (ser : List Nat → List Nat) (pk cc : List Nat),
      DerivePrivateKeyForPath ser pk cc (natToChars 2147483648 ++ [apos]) =
        DerivePrivateKeyForPath ser pk cc (natToChars 0 ++ [apos])) := by
  refine ⟨?_, ?_, ?_⟩
  · intro n _ hhi
    exact ⟨parseToken_hardened (by omega), parseToken_plain (by omega)⟩
  · intro ser pk cc v hlo hhi
    simp only [derivePrivateKey]
    norm_num
    rw [hardIndex_collision' (by omega) (by omega)]
    exact ⟨rfl, rfl⟩
  · intro ser pk cc
    have hsp1 : splitSlash (natToChars 2147483648 ++ [apos]) =
        [natToChars 2147483648 ++ [apos]] :=
      splitSlash_no_slash _ (hardTok_no_slash _)
    have hsp2 : splitSlash (natToChars 0 ++ [apos]) = [natToChars 0 ++ [apos]] :=
      splitSlash_no_slash _ (hardTok_no_slash _)
    have hp1 : parseToken (natToChars 2147483648 ++ [apos]) =
        .ok (2147483648 : Int) true := parseToken_hardened (by norm_num)
    have hp2 : parseToken (natToChars 0 ++ [apos]) = .ok (0 : Int) true :=
      parseToken_hardened (by norm_num)
    have hder : derivePrivateKey ser pk cc ((2147483648 : Int).toNat % 2 ^ 32)
          true =
        derivePrivateKey ser pk cc ((0 : Int).toNat % 2 ^ 32) true := by
      rw [show (2147483648 : Int).toNat % 2 ^ 32 = 2147483648 by decide,
        show (0 : Int).toNat % 2 ^ 32 = 0 by decide]
      simp only [derivePrivateKey]
      rw [show (2147483648 : Nat) ||| 2147483648 = 0 ||| 2147483648 by decide]
      simp
    have hl1 : deriveLoop ser (splitSlash (natToChars 2147483648 ++ [apos]))
        pk cc = .ok
          (derivePrivateKey ser pk cc ((2147483648 : Int).toNat % 2 ^ 32) true).1
          (derivePrivateKey ser pk cc ((2147483648 : Int).toNat % 2 ^ 32) true).2 := by
      rw [hsp1]
      simp only [deriveLoop, hp1]
    have hl2 : deriveLoop ser (splitSlash (natToChars 0 ++ [apos]))
        pk cc = .ok
          (derivePrivateKey ser pk cc ((0 : Int).toNat % 2 ^ 32) true).1
          (derivePrivateKey ser pk cc ((0 : Int).toNat % 2 ^ 32) true).2 := by
      rw [hsp2]
      simp only [deriveLoop, hp2]
    rw [D_eq_ok hl1, D_eq_ok hl2, hder]

/-- Witness for claim C6 (amended) at the boundary value 2^31. -/
theorem claim_C6_witness :
    (parseToken (natToChars 2147483648 ++ [apos]) =
        .ok ((2147483648 : Nat) : Int) true ∧
     parseToken (natToChars 2147483648) = .ok ((2147483648 : Nat) : Int) false) ∧
    derivePrivateKey ser0 (List.replicate 32 0) (List.replicate 32 0)
        2147483648 true =
      derivePrivateKey ser0 (List.replicate 32 0) (List.replicate 32 0)
        (2147483648 - 2 ^ 31) true :=
  ⟨claim_C6_amended.1 2147483648 (by norm_num) (by norm_num),
   claim_C6_amended.2.1 ser0 (List.replicate 32 0) (List.replicate 32 0)
     2147483648 (by norm_num) (by norm_num)⟩

end HD
